import Mathlib

/-!
Verification development for `Scripts/sim_search.py` of the NP_Fingerprints
repository.

The Python source computes pairwise similarities between rows of a numeric
matrix (`sim_search`), summarizes a similarity vector into 22 statistics
(`eval_sim`), and compares top-1%-neighbor sets across a stack of similarity
vectors (`eval_overlap`).

Modelling conventions:
* numpy float arrays are modelled with exact rationals (`ℚ`); float rounding
  is outside the scope of the statements settled here;
* fallible operations (Python exceptions such as `ZeroDivisionError`, or the
  `IndexError` numpy raises for a percentile of an empty array, and numpy's
  NaN result for the mean of an empty list) are modelled with `Option`:
  `none` stands for "no ordinary numeric result";
* a matrix is a list of rows (`List (List ℚ)`), matching the row-wise access
  `fp[i, :]` performed by the source.
-/

/-- Option-valued map over a list: models a Python loop whose body may raise.
The first failing element aborts the whole computation (`none`), exactly as an
exception aborts the enclosing loop. -/
def mapOpt {α β : Type} (f : α → Option β) : List α → Option (List β)
  | [] => some []
  | a :: l =>
    match f a, mapOpt f l with
    | some b, some bs => some (b :: bs)
    | _, _ => none

/-- The canonical enumeration of the unique unordered index pairs of `M` rows:
`for i in range(n_samples - 1): for j in range(i+1, n_samples)` in the source
(`sim_search` and the reconstruction loop of `eval_overlap` both use it).
`List.range' (i+1) (M-(i+1))` is Python's `range(i+1, M)`. -/
def pairs (M : ℕ) : List (ℕ × ℕ) :=
  (List.range (M - 1)).flatMap
    (fun i => (List.range' (i + 1) (M - (i + 1))).map (fun j => (i, j)))

/-- Strict lexicographic order on index pairs: the order in which the source
enumerates the pairs `(0,1),(0,2),…,(0,M-1),(1,2),…`. -/
def pairLex (p q : ℕ × ℕ) : Prop :=
  p.1 < q.1 ∨ (p.1 = q.1 ∧ p.2 < q.2)

/-- `np.count_nonzero(a == b)`: the number of positions where the two rows
agree. -/
def countEq (a b : List ℚ) : ℕ :=
  ((a.zip b).filter (fun p => decide (p.1 = p.2))).length

/-- `jaccard_like` from the source:
`1 - float(np.count_nonzero(a == b)) / float(len(a))`.
When `len(a) = 0` the Python division raises `ZeroDivisionError`, hence
`none`. -/
def jaccard_like (a b : List ℚ) : Option ℚ :=
  if a.length = 0 then none
  else some (1 - (countEq a b : ℚ) / (a.length : ℚ))

/-- `scipy.spatial.distance.jaccard`: the Jaccard--Tanimoto distance over the
positions where either row is nonzero; scipy (≥ 1.2) returns `0` when no
position is nonzero, so the function is total. -/
def scipy_jaccard (u v : List ℚ) : ℚ :=
  let z := u.zip v
  let nonzero := (z.filter (fun p => decide (p.1 ≠ 0 ∨ p.2 ≠ 0))).length
  let uneq := (z.filter (fun p => decide (p.1 ≠ p.2 ∧ (p.1 ≠ 0 ∨ p.2 ≠ 0)))).length
  if nonzero = 0 then 0 else (uneq : ℚ) / (nonzero : ℚ)

/-- `fp[fp > 1] = 1`: clamp every matrix value greater than one to one. -/
def clampBin (a : List (List ℚ)) : List (List ℚ) :=
  a.map (fun row => row.map (fun x => if 1 < x then 1 else x))

/-- Metric selection of `sim_search`: the string `"default"` selects the scipy
Jaccard distance, every other string falls through to `jaccard_like`. -/
def metricEval (sim_metric : String) (a b : List ℚ) : Option ℚ :=
  if sim_metric = "default" then some (scipy_jaccard a b) else jaccard_like a b

/-- `sim_search` from the source.  The input is copied (our lists are
immutable, so the copy is implicit); when the default metric is selected and
`force_binary` is true, values above one are clamped to one; then the loop
over all unique pairs appends `1 - metric(fp[i,:], fp[j,:])`.  The clamp does
not change the number of rows, so the pair enumeration uses the input's row
count. -/
def sim_search (array : List (List ℚ)) (sim_metric : String := "default")
    (force_binary : Bool := true) : Option (List ℚ) :=
  let fp := if sim_metric = "default" ∧ force_binary = true then clampBin array else array
  mapOpt
    (fun p => (metricEval sim_metric (fp.getD p.1 []) (fp.getD p.2 [])).map (fun d => 1 - d))
    (pairs array.length)

/-- Ascending insertion into a sorted list of rationals. -/
def insertQ (x : ℚ) : List ℚ → List ℚ
  | [] => [x]
  | y :: ys => if x ≤ y then x :: y :: ys else y :: insertQ x ys

/-- Ascending sort of a list of rationals, used to model the sorting performed
inside `np.median` and `np.percentile`. -/
def sortQ : List ℚ → List ℚ
  | [] => []
  | x :: xs => insertQ x (sortQ xs)

/-- `np.mean`: sum divided by length (exact rationals). -/
def np_mean (l : List ℚ) : ℚ := l.sum / (l.length : ℚ)

/-- The population variance computed by `np.std` before its square root:
mean of squared deviations, divisor `N` (numpy's default `ddof = 0`). -/
def np_var (l : List ℚ) : ℚ :=
  ((l.map (fun x => (x - np_mean l) ^ 2)).sum) / (l.length : ℚ)

/-- `np.std`: the square root of the population variance.  The square root is
irrational in general, so this single value lives in `ℝ`. -/
noncomputable def np_std (l : List ℚ) : ℝ := Real.sqrt ((np_var l : ℚ) : ℝ)

/-- `np.median`: middle element of the sorted data for odd length, average of
the two middle elements for even length. -/
def np_median (l : List ℚ) : ℚ :=
  let s := sortQ l
  let n := l.length
  if n % 2 = 1 then s.getD (n / 2) 0
  else (s.getD (n / 2 - 1) 0 + s.getD (n / 2) 0) / 2

/-- `np.percentile` with its default linear-interpolation method: the virtual
position is `q/100 * (n-1)`; the result interpolates between the two adjacent
order statistics (the upper index is clipped to `n-1`). -/
def np_percentile (l : List ℚ) (q : ℚ) : ℚ :=
  let s := sortQ l
  let n := l.length
  let pos : ℚ := q / 100 * ((n : ℚ) - 1)
  let i : ℕ := (Int.floor pos).toNat
  let g : ℚ := pos - (i : ℚ)
  let lo := s.getD i 0
  let hi := s.getD (min (i + 1) (n - 1)) 0
  lo + g * (hi - lo)

/-- `np.arange(5, 100, 5)`: the 19 percentile ranks 5, 10, …, 95. -/
def percent_grid : List ℚ := (List.range' 5 19 5).map (fun n : ℕ => (n : ℚ))

/-- `eval_sim` from the source: `[mean, std, median] ++ percentiles`.
On an empty vector the mean/std/median are numpy NaNs and `np.percentile`
raises an `IndexError`, so the overall call fails: `none`. -/
noncomputable def eval_sim (similarity : List ℚ) : Option (List ℝ) :=
  if similarity.length = 0 then none
  else some ([((np_mean similarity : ℚ) : ℝ), np_std similarity,
      ((np_median similarity : ℚ) : ℝ)] ++
    percent_grid.map (fun q => ((np_percentile similarity q : ℚ) : ℝ)))

/-- Position of an element in a list (`none` if absent).  The reconstruction
loop of `eval_overlap` writes `similarity_matrix[k, count]` into the cell for
the `count`-th enumerated pair, so reading cell `(i,j)` back amounts to
looking up the position of `(i,j)` in the canonical enumeration. -/
def idxIn : List (ℕ × ℕ) → ℕ × ℕ → Option ℕ
  | [], _ => none
  | p :: l, x => if p = x then some 0 else (idxIn l x).map (fun c => c + 1)

/-- The square matrix rebuilt by `eval_overlap`'s reconstruction loop from a
similarity vector `v` over `M` entities: cell `(i,j)` with `i < j` holds the
entry of `v` at the position of `(i,j)` in the canonical pair enumeration,
the mirror cell `(j,i)` is assigned the same value, and the diagonal keeps
its `np.zeros` initialization. -/
def recon (v : List ℚ) (M : ℕ) (i j : ℕ) : ℚ :=
  if i < j then ((idxIn (pairs M) (i, j)).map (fun c => v.getD c 0)).getD 0
  else if j < i then ((idxIn (pairs M) (j, i)).map (fun c => v.getD c 0)).getD 0
  else 0

/-- Ascending insertion of an index by key value. -/
def insertIdx (f : ℕ → ℚ) (x : ℕ) : List ℕ → List ℕ
  | [] => [x]
  | y :: ys => if f x ≤ f y then x :: y :: ys else y :: insertIdx f x ys

/-- Insertion sort of indices by key value. -/
def argsortAsc (f : ℕ → ℚ) : List ℕ → List ℕ
  | [] => []
  | x :: xs => insertIdx f x (argsortAsc f xs)

/-- `np.argsort` along one row: the indices `0, …, M-1` reordered so that the
key values ascend.  numpy's default quicksort leaves the relative order of
equal keys unspecified, so any ascending reordering is a faithful model; the
properties proved below use only that the result is a permutation of
`range M`. -/
def argsortRow (f : ℕ → ℚ) (M : ℕ) : List ℕ := argsortAsc f (List.range M)

/-- Python's `l[-t:]`.  For `t ≥ 1` this is `drop (len - t)`; for `t = 0` the
slice `l[-0:]` is `l[0:]`, the WHOLE list — the `-0` pitfall the source hits
when `top_1 = 0`. -/
def lastSlice {α : Type} (l : List α) (t : ℕ) : List α :=
  if t = 0 then l else l.drop (l.length - t)

/-- `top_1 = int(n_compounds * 0.01)` from the source.  For every natural `M`
the float product `M * 0.01` truncates to `⌊M / 100⌋` (the stored double for
`0.01` exceeds 1/100 by a relative 2·10⁻¹⁷, far below the 0.01 granularity of
`M/100`), so the integer division is an exact model. -/
def top_k (M : ℕ) : ℕ := M / 100

/-- `sort_indices[ent, :, s]` from the source: the last `top_1` entries of the
ascending argsort of row `ent` of stack member `s`'s reconstructed square
matrix (argsort is taken along axis 1, the column axis). -/
def sortIdxSlice (stack : List (List ℚ)) (M ent s : ℕ) : List ℕ :=
  lastSlice (argsortRow (fun j => recon (stack.getD s []) M ent j) M) (top_k M)

/-- `len(np.intersect1d(a, b))`: the number of distinct values occurring in
both lists. -/
def intersectCount (a b : List ℕ) : ℕ :=
  (a.dedup.filter (fun x => decide (x ∈ b))).length

/-- `np.mean` of a possibly-empty list; numpy yields NaN on an empty input,
modelled as `none`. -/
def meanOpt (l : List ℚ) : Option ℚ :=
  if l.length = 0 then none else some (l.sum / (l.length : ℚ))

/-- One term `intersect / top_1` of `eval_overlap`'s innermost loop.  When
`top_1 = 0` the Python integer division raises `ZeroDivisionError`: `none`. -/
def overlapTerm (stack : List (List ℚ)) (M i j k : ℕ) : Option ℚ :=
  if top_k M = 0 then none
  else some ((intersectCount (sortIdxSlice stack M k i) (sortIdxSlice stack M k j) : ℚ) /
    (top_k M : ℚ))

/-- `output[i, j]` of `eval_overlap`: the mean over all `M` entities of the
neighbor-set overlap between stack members `i` and `j`. -/
def overlapEntry (stack : List (List ℚ)) (M i j : ℕ) : Option ℚ :=
  match mapOpt (overlapTerm stack M i j) (List.range M) with
  | some ov => meanOpt ov
  | none => none

/-- `eval_overlap` from the source: the `S×S` matrix of mean neighbor-set
overlaps between the members of a stack of `S` similarity vectors over
`n_compounds` entities. -/
def eval_overlap (similarity_matrix : List (List ℚ)) (n_compounds : ℕ) :
    Option (List (List ℚ)) :=
  mapOpt
    (fun i => mapOpt (fun j => overlapEntry similarity_matrix n_compounds i j)
      (List.range similarity_matrix.length))
    (List.range similarity_matrix.length)

/-- The value of one overlap term when the division succeeds (proof helper;
`overlapTerm` is shown to return exactly this value when `top_k M ≠ 0`). -/
def overlapVal (stack : List (List ℚ)) (M i j k : ℕ) : ℚ :=
  (intersectCount (sortIdxSlice stack M k i) (sortIdxSlice stack M k j) : ℚ) / (top_k M : ℚ)

/-- The value of one entry of the overlap matrix when every term succeeds
(proof helper). -/
def overlapEntryVal (stack : List (List ℚ)) (M i j : ℕ) : ℚ :=
  ((List.range M).map (overlapVal stack M i j)).sum / (M : ℚ)

/-- The full overlap matrix value when every entry succeeds (proof helper). -/
def overlapMatrixVal (stack : List (List ℚ)) (M : ℕ) : List (List ℚ) :=
  (List.range stack.length).map
    (fun i => (List.range stack.length).map (fun j => overlapEntryVal stack M i j))

section Lemmas

theorem mapOpt_eq_map {α β : Type} (f : α → Option β) (g : α → β) :
    ∀ l : List α, (∀ a ∈ l, f a = some (g a)) → mapOpt f l = some (l.map g)
  | [], _ => rfl
  | a :: l, h => by
    have ha := h a (List.mem_cons_self a l)
    have ht := mapOpt_eq_map f g l (fun x hx => h x (List.mem_cons_of_mem a hx))
    simp [mapOpt, ha, ht]

theorem mapOpt_congr {α β : Type} {f g : α → Option β} :
    ∀ l : List α, (∀ a ∈ l, f a = g a) → mapOpt f l = mapOpt g l
  | [], _ => rfl
  | a :: l, h => by
    have ha := h a (List.mem_cons_self a l)
    have ht := mapOpt_congr l (fun x hx => h x (List.mem_cons_of_mem a hx))
    simp [mapOpt, ha, ht]

theorem pairs_mem {M : ℕ} {p : ℕ × ℕ} : p ∈ pairs M ↔ p.1 < p.2 ∧ p.2 < M := by
  obtain ⟨i, j⟩ := p
  simp only [pairs, List.mem_flatMap, List.mem_map, List.mem_range, List.mem_range'_1,
    Prod.mk.injEq]
  constructor
  · rintro ⟨a, ha, b, hb, rfl, rfl⟩
    omega
  · rintro ⟨hij, hjM⟩
    exact ⟨i, by omega, j, by omega, rfl, rfl⟩

theorem sum_map_succ (f : ℕ → ℕ) :
    ∀ l : List ℕ, (l.map (fun i => f i + 1)).sum = (l.map f).sum + l.length
  | [] => rfl
  | a :: l => by
    have := sum_map_succ f l
    simp only [List.map_cons, List.sum_cons, List.length_cons, this]
    omega

theorem sum_desc : ∀ n : ℕ, 2 * ((List.range n).map (fun i => n - i)).sum = n * (n + 1)
  | 0 => rfl
  | n + 1 => by
    have ih := sum_desc n
    have hcongr : (List.range n).map (fun i => n + 1 - i) =
        (List.range n).map (fun i => (n - i) + 1) := by
      apply List.map_congr_left
      intro a ha
      have : a < n := List.mem_range.mp ha
      omega
    have hmain : ((List.range (n + 1)).map (fun i => n + 1 - i)).sum =
        ((List.range n).map (fun i => n - i)).sum + n + 1 := by
      rw [List.range_succ, List.map_append, List.sum_append, hcongr,
        sum_map_succ (fun i => n - i) (List.range n)]
      simp [List.length_range]
    rw [hmain]
    have hring : (n + 1) * (n + 1 + 1) = n * (n + 1) + 2 * n + 2 := by ring
    omega

theorem pairs_length (M : ℕ) : (pairs M).length = M * (M - 1) / 2 := by
  cases M with
  | zero => rfl
  | succ n =>
    have hlen : (pairs (n + 1)).length = ((List.range n).map (fun i => n - i)).sum := by
      simp only [pairs, List.length_flatMap, Nat.add_sub_cancel]
      congr 1
      apply List.map_congr_left
      intro a _
      simp [List.length_range']
    have hsum := sum_desc n
    have hmul : (n + 1) * (n + 1 - 1) = n * (n + 1) := by
      simp [Nat.add_sub_cancel]
      ring
    rw [hlen, hmul]
    omega

theorem pairwise_flatMap {β : Type} {R : β → β → Prop} {f : ℕ → List β} :
    ∀ l : List ℕ, l.Pairwise (· < ·) →
      (∀ i ∈ l, (f i).Pairwise R) →
      (∀ i k, i < k → ∀ p ∈ f i, ∀ q ∈ f k, R p q) →
      (l.flatMap f).Pairwise R
  | [], _, _, _ => by simp
  | a :: l, hl, hin, hcross => by
    rw [List.flatMap_cons, List.pairwise_append]
    have hl' := List.pairwise_cons.mp hl
    refine ⟨hin a (List.mem_cons_self a l),
      pairwise_flatMap l hl'.2 (fun i hi => hin i (List.mem_cons_of_mem a hi)) hcross, ?_⟩
    intro p hp q hq
    obtain ⟨k, hk, hqk⟩ := List.mem_flatMap.mp hq
    exact hcross a k (hl'.1 k hk) p hp q hqk

theorem pairs_pairwise (M : ℕ) : (pairs M).Pairwise pairLex := by
  apply pairwise_flatMap _ (List.pairwise_lt_range _)
  · intro i _
    rw [List.pairwise_map]
    have : (List.range' (i + 1) (M - (i + 1))).Pairwise (· < ·) := by
      have h := List.pairwise_lt_range (M - (i + 1))
      have : List.range' (i + 1) (M - (i + 1)) =
          (List.range (M - (i + 1))).map (fun x => (i + 1) + x) := by
        rw [List.range'_eq_map_range]
      rw [this, List.pairwise_map]
      exact h.imp (by omega)
    exact this.imp (fun h => Or.inr ⟨rfl, h⟩)
  · intro i k hik p hp q hq
    obtain ⟨a, _, rfl⟩ := List.mem_map.mp hp
    obtain ⟨b, _, rfl⟩ := List.mem_map.mp hq
    exact Or.inl hik

theorem pairs_nodup (M : ℕ) : (pairs M).Nodup := by
  apply (pairs_pairwise M).imp
  intro p q h heq
  subst heq
  rcases h with h | ⟨_, h⟩ <;> omega

theorem idxIn_lt : ∀ (l : List (ℕ × ℕ)) (x : ℕ × ℕ) (c : ℕ),
    idxIn l x = some c → c < l.length
  | [], _, _, h => by simp [idxIn] at h
  | p :: l, x, c, h => by
    by_cases hpx : p = x
    · simp only [idxIn, if_pos hpx, Option.some.injEq] at h
      subst h
      simp
    · simp only [idxIn, if_neg hpx, Option.map_eq_some'] at h
      obtain ⟨c', hc', rfl⟩ := h
      have := idxIn_lt l x c' hc'
      simp only [List.length_cons]
      omega

theorem idxIn_get : ∀ (l : List (ℕ × ℕ)), l.Nodup → ∀ (c : ℕ) (hc : c < l.length),
    idxIn l (l.get ⟨c, hc⟩) = some c
  | [], _, c, hc => by simp at hc
  | p :: t, hnd, 0, hc => by simp [idxIn]
  | p :: t, hnd, c + 1, hc => by
    have hc' : c < t.length := by simpa using hc
    have hnd' := List.nodup_cons.mp hnd
    have hget : (p :: t).get ⟨c + 1, hc⟩ = t.get ⟨c, hc'⟩ := rfl
    have hne : p ≠ t.get ⟨c, hc'⟩ := by
      intro hcontra
      exact hnd'.1 (hcontra ▸ (t.get_mem c hc'))
    rw [hget]
    simp only [idxIn, if_neg hne, idxIn_get t hnd'.2 c hc', Option.map_some']

theorem getD_map_nil {f : List ℚ → List ℚ} (hf : f [] = []) :
    ∀ (l : List (List ℚ)) (s : ℕ), (l.map f).getD s [] = f (l.getD s [])
  | [], s => by simp [hf]
  | a :: l, 0 => rfl
  | a :: l, s + 1 => by
    simp only [List.map_cons, List.getD_cons_succ]
    exact getD_map_nil hf l s

theorem getD_take {v : List ℚ} {n c : ℕ} (hc : c < n) :
    (v.take n).getD c 0 = v.getD c 0 := by
  rw [List.getD_eq_getElem?_getD, List.getD_eq_getElem?_getD, List.getElem?_take,
    if_pos hc]

theorem insertIdx_perm (f : ℕ → ℚ) (x : ℕ) :
    ∀ l : List ℕ, (insertIdx f x l).Perm (x :: l)
  | [] => List.Perm.refl _
  | y :: ys => by
    by_cases hxy : f x ≤ f y
    · simp [insertIdx, hxy]
    · simp only [insertIdx, if_neg hxy]
      exact ((insertIdx_perm f x ys).cons y).trans (List.Perm.swap x y ys)

theorem argsortAsc_perm (f : ℕ → ℚ) : ∀ l : List ℕ, (argsortAsc f l).Perm l
  | [] => List.Perm.refl _
  | x :: xs =>
    (insertIdx_perm f x (argsortAsc f xs)).trans ((argsortAsc_perm f xs).cons x)

theorem argsortRow_perm (f : ℕ → ℚ) (M : ℕ) : (argsortRow f M).Perm (List.range M) :=
  argsortAsc_perm f (List.range M)

theorem argsortRow_nodup (f : ℕ → ℚ) (M : ℕ) : (argsortRow f M).Nodup :=
  ((argsortRow_perm f M).nodup_iff).mpr (List.nodup_range M)

theorem argsortRow_length (f : ℕ → ℚ) (M : ℕ) : (argsortRow f M).length = M := by
  rw [(argsortRow_perm f M).length_eq, List.length_range]

theorem sortIdxSlice_nodup (stack : List (List ℚ)) (M ent s : ℕ) :
    (sortIdxSlice stack M ent s).Nodup := by
  unfold sortIdxSlice lastSlice
  split
  · exact argsortRow_nodup _ M
  · exact List.Nodup.sublist (List.drop_sublist _ _) (argsortRow_nodup _ M)

theorem sortIdxSlice_length (stack : List (List ℚ)) (M ent s : ℕ) (h : top_k M ≠ 0) :
    (sortIdxSlice stack M ent s).length = top_k M := by
  have htle : top_k M ≤ M := Nat.div_le_self M 100
  unfold sortIdxSlice lastSlice
  rw [if_neg h, List.length_drop, argsortRow_length]
  omega

theorem intersectCount_self {l : List ℕ} (h : l.Nodup) : intersectCount l l = l.length := by
  unfold intersectCount
  rw [List.dedup_eq_self.mpr h]
  rw [List.filter_eq_self.mpr (fun a ha => decide_eq_true ha)]

theorem overlapTerm_eq (stack : List (List ℚ)) (M i j k : ℕ) (h : top_k M ≠ 0) :
    overlapTerm stack M i j k = some (overlapVal stack M i j k) := by
  simp [overlapTerm, overlapVal, h]

theorem overlapVal_diag (stack : List (List ℚ)) (M i k : ℕ) (h : top_k M ≠ 0) :
    overlapVal stack M i i k = 1 := by
  unfold overlapVal
  rw [intersectCount_self (sortIdxSlice_nodup stack M k i),
    sortIdxSlice_length stack M k i h]
  exact div_self (Nat.cast_ne_zero.mpr h)

theorem overlapEntry_eq (stack : List (List ℚ)) (M i j : ℕ) (h : top_k M ≠ 0)
    (hM : M ≠ 0) : overlapEntry stack M i j = some (overlapEntryVal stack M i j) := by
  unfold overlapEntry
  rw [mapOpt_eq_map (overlapTerm stack M i j) (overlapVal stack M i j) _
    (fun a _ => overlapTerm_eq stack M i j a h)]
  simp [meanOpt, overlapEntryVal, List.length_range, hM]

theorem overlapEntryVal_diag (stack : List (List ℚ)) (M i : ℕ) (h : top_k M ≠ 0)
    (hM : M ≠ 0) : overlapEntryVal stack M i i = 1 := by
  unfold overlapEntryVal
  have : (List.range M).map (overlapVal stack M i i) = List.replicate M 1 := by
    rw [List.map_congr_left (fun a _ => overlapVal_diag stack M i a h)]
    rw [List.map_const', List.length_range]
  rw [this, List.sum_replicate]
  simp
  exact div_self (Nat.cast_ne_zero.mpr hM)

theorem eval_overlap_eq (stack : List (List ℚ)) (M : ℕ) (h : top_k M ≠ 0) (hM : M ≠ 0) :
    eval_overlap stack M = some (overlapMatrixVal stack M) := by
  unfold eval_overlap overlapMatrixVal
  apply mapOpt_eq_map
  intro i _
  apply mapOpt_eq_map
  intro j _
  exact overlapEntry_eq stack M i j h hM

theorem np_var_nonneg (l : List ℚ) : 0 ≤ np_var l := by
  unfold np_var
  apply div_nonneg
  · apply List.sum_nonneg
    intro x hx
    obtain ⟨y, _, rfl⟩ := List.mem_map.mp hx
    positivity
  · positivity

theorem clampBin_idem (A : List (List ℚ)) : clampBin (clampBin A) = clampBin A := by
  unfold clampBin
  rw [List.map_map]
  apply List.map_congr_left
  intro row _
  simp only [Function.comp_apply, List.map_map]
  apply List.map_congr_left
  intro x _
  simp only [Function.comp_apply]
  by_cases h : 1 < x
  · simp [h]
  · simp [h]

theorem clampBin_length (A : List (List ℚ)) : (clampBin A).length = A.length := by
  simp [clampBin]

theorem recon_take (v : List ℚ) (M i j : ℕ) :
    recon (v.take (M * (M - 1) / 2)) M i j = recon v M i j := by
  have key : ∀ x : ℕ × ℕ,
      ((idxIn (pairs M) x).map (fun c => (v.take (M * (M - 1) / 2)).getD c 0)).getD 0 =
        ((idxIn (pairs M) x).map (fun c => v.getD c 0)).getD 0 := by
    intro x
    cases hx : idxIn (pairs M) x with
    | none => rfl
    | some c =>
      have hc : c < (pairs M).length := idxIn_lt _ _ _ hx
      rw [pairs_length] at hc
      simp only [Option.map_some', Option.getD_some]
      exact getD_take hc
  unfold recon
  split
  · exact key (i, j)
  · split
    · exact key (j, i)
    · rfl

theorem sortIdxSlice_take (stack : List (List ℚ)) (M ent s : ℕ) :
    sortIdxSlice (stack.map (fun v => v.take (M * (M - 1) / 2))) M ent s =
      sortIdxSlice stack M ent s := by
  unfold sortIdxSlice argsortRow
  congr 2
  funext j
  rw [getD_map_nil (by simp) stack s]
  exact recon_take _ M ent j

theorem eval_overlap_take (stack : List (List ℚ)) (M : ℕ) :
    eval_overlap (stack.map (fun v => v.take (M * (M - 1) / 2))) M =
      eval_overlap stack M := by
  unfold eval_overlap
  rw [List.length_map]
  apply mapOpt_congr
  intro i _
  apply mapOpt_congr
  intro j _
  unfold overlapEntry
  have hterm : mapOpt (overlapTerm (stack.map (fun v => v.take (M * (M - 1) / 2))) M i j)
      (List.range M) = mapOpt (overlapTerm stack M i j) (List.range M) := by
    apply mapOpt_congr
    intro k _
    unfold overlapTerm
    rw [sortIdxSlice_take, sortIdxSlice_take]
  rw [hterm]

end Lemmas

/-- C8: for every `M ≥ 1` and every vector of length `M(M-1)/2`, rebuilding the
symmetric square matrix the way `eval_overlap`'s reconstruction loop does and
re-flattening its strict upper triangle in the canonical `(i<j)` order
reproduces the original vector exactly. -/
theorem recon_roundtrip (M : ℕ) (v : List ℚ) (hM : 1 ≤ M)
    (hv : v.length = M * (M - 1) / 2) :
    (pairs M).map (fun p => recon v M p.1 p.2) = v := by
  apply List.ext_getElem
  · simp [pairs_length, hv]
  · intro n h₁ h₂
    rw [List.getElem_map]
    have hn : n < (pairs M).length := by simpa using h₁
    have hp : (pairs M)[n] ∈ pairs M := List.getElem_mem hn
    have hlt : ((pairs M)[n]).1 < ((pairs M)[n]).2 := (pairs_mem.mp hp).1
    have hidx : idxIn (pairs M) ((pairs M)[n]) = some n := by
      have := idxIn_get (pairs M) (pairs_nodup M) n hn
      simpa [List.get_eq_getElem] using this
    unfold recon
    rw [if_pos hlt, Prod.mk.eta, hidx]
    simp only [Option.map_some', Option.getD_some]
    exact List.getD_eq_getElem v 0 h₂

/-- C8 witness: the round-trip law applied to the concrete vector `[5, 7, 11]`
over `M = 3` entities. -/
theorem recon_roundtrip_witness :
    (pairs 3).map (fun p => recon [(5 : ℚ), 7, 11] 3 p.1 p.2) = [(5 : ℚ), 7, 11] :=
  recon_roundtrip 3 [(5 : ℚ), 7, 11] (by norm_num) (by decide)

/-- C2 (code bug): for `n_compounds = 50` the top-k count
`int(50 * 0.01)` is `0` and `eval_overlap` evaluates `intersect / top_1`,
a Python `ZeroDivisionError` — modelled as `none`.  The spec requires a
defined zero/empty result instead of a crash at this boundary. -/
theorem eval_overlap_zero_topk_crash :
    eval_overlap [List.replicate 1225 (0 : ℚ)] 50 = none := by decide

/-- C5 counterexample: `sim_search` on a matrix with zero rows does NOT fail
with an `EmptyInput` error: the pair loop simply never runs and the
preallocated empty vector is returned. -/
theorem sim_search_zero_rows_returns :
    sim_search ([] : List (List ℚ)) "default" true = some [] := rfl

/-- C5 amended: `sim_search` applied to a zero-row matrix returns an empty
similarity vector without error (for every metric name and flag), while
`eval_sim` applied to a zero-length vector does fail (numpy raises on the
percentile of an empty array). -/
theorem sim_search_empty_behavior :
    (∀ (s : String) (fb : Bool), sim_search [] s fb = some []) ∧
      eval_sim [] = none := by
  constructor
  · intro s fb
    rfl
  · rfl

/-- C3 counterexample: the unrecognized metric name `"typo"` does not fail
with an `UnsupportedMetric` error; `sim_search` silently computes the
alternate-metric similarity result. -/
theorem sim_search_typo_computes :
    sim_search [[(1 : ℚ), 0], [1, 1]] "typo" true = some [1 / 2] := by
  have h : sim_search [[(1 : ℚ), 0], [1, 1]] "typo" true =
      some [1 - (1 - (countEq [(1 : ℚ), 0] [1, 1] : ℚ) / 2)] := rfl
  rw [h]
  norm_num [countEq]

/-- C3 amended: every metric-name string other than `"default"` selects the
alternate (element-equality) metric, so all non-default names — recognized or
not — yield identical behavior; no `UnsupportedMetric` error exists. -/
theorem sim_search_nondefault_uniform (A : List (List ℚ)) (s₁ s₂ : String)
    (fb₁ fb₂ : Bool) (h₁ : s₁ ≠ "default") (h₂ : s₂ ≠ "default") :
    sim_search A s₁ fb₁ = sim_search A s₂ fb₂ := by
  unfold sim_search metricEval
  simp [h₁, h₂]

/-- C3 witness: two distinct unrecognized metric names (and distinct flags)
produce the same result on a concrete matrix. -/
theorem sim_search_nondefault_uniform_witness :
    sim_search [[(1 : ℚ), 0], [1, 1]] "typo" true =
      sim_search [[(1 : ℚ), 0], [1, 1]] "x" false :=
  sim_search_nondefault_uniform [[(1 : ℚ), 0], [1, 1]] "typo" "x" true false
    (by decide) (by decide)

/-- C4 counterexample: with binary-forcing requested but a non-default metric
selected, `sim_search` does NOT clamp values above one — its result differs
from the result on the pre-clamped matrix. -/
theorem sim_search_alternate_unclamped :
    sim_search [[(2 : ℚ), 0], [1, 0]] "alt" true ≠
      sim_search (clampBin [[(2 : ℚ), 0], [1, 0]]) "alt" true := by
  have h1 : sim_search [[(2 : ℚ), 0], [1, 0]] "alt" true =
      some [1 - (1 - (countEq [(2 : ℚ), 0] [1, 0] : ℚ) / 2)] := rfl
  have h2 : sim_search (clampBin [[(2 : ℚ), 0], [1, 0]]) "alt" true =
      some [1 - (1 - (countEq [(1 : ℚ), 0] [1, 0] : ℚ) / 2)] := rfl
  rw [h1, h2]
  norm_num [countEq]

/-- C4 amended: the clamp `fp[fp > 1] = 1` runs only in the default metric
mode.  In any other mode `force_binary` has no effect (the matrix is used
unclamped), while in the default mode with binary-forcing the computation
agrees with running on the pre-clamped matrix. -/
theorem sim_search_clamp_only_default (A : List (List ℚ)) (s : String)
    (h : s ≠ "default") :
    sim_search A s true = sim_search A s false ∧
      sim_search A "default" true = sim_search (clampBin A) "default" true := by
  constructor
  · unfold sim_search
    simp [h]
  · unfold sim_search
    simp [clampBin_length, clampBin_idem A]

/-- C4 witness: the amended clamp behavior at a concrete count matrix and the
concrete non-default metric name `"alt"`. -/
theorem sim_search_clamp_only_default_witness :
    sim_search [[(2 : ℚ), 0], [1, 0]] "alt" true =
        sim_search [[(2 : ℚ), 0], [1, 0]] "alt" false ∧
      sim_search [[(2 : ℚ), 0], [1, 0]] "default" true =
        sim_search (clampBin [[(2 : ℚ), 0], [1, 0]]) "default" true :=
  sim_search_clamp_only_default [[(2 : ℚ), 0], [1, 0]] "alt" (by decide)

/-- C9: for a well-formed similarity-vector stack (every member has the
exact per-vector length `M(M-1)/2`, so the reconstruction loop's reads all
stay in range), whenever `top_k = ⌊M/100⌋ ≥ 1`, `eval_overlap` returns an
`S×S` matrix whose diagonal entries all equal exactly `1`: each entity's
top-k neighbor set has full overlap with itself. -/
theorem eval_overlap_diag_one (stack : List (List ℚ)) (M : ℕ) (h : 1 ≤ top_k M)
    (hlen : ∀ v ∈ stack, v.length = M * (M - 1) / 2) :
    ∃ out, eval_overlap stack M = some out ∧ out.length = stack.length ∧
      ∀ s, s < stack.length → (out.getD s []).getD s 0 = 1 := by
  have ht : top_k M ≠ 0 := by omega
  have hM : M ≠ 0 := by
    have h100 : 100 ≤ M := (Nat.one_le_div_iff (by norm_num)).mp h
    omega
  refine ⟨overlapMatrixVal stack M, eval_overlap_eq stack M ht hM,
    by simp [overlapMatrixVal], ?_⟩
  intro s hs
  have hs1 : s < ((List.range stack.length).map
      (fun i => (List.range stack.length).map
        (fun j => overlapEntryVal stack M i j))).length := by
    simpa using hs
  have hrow : (overlapMatrixVal stack M).getD s [] =
      (List.range stack.length).map (fun j => overlapEntryVal stack M s j) := by
    unfold overlapMatrixVal
    rw [List.getD_eq_getElem _ _ hs1, List.getElem_map, List.getElem_range]
  rw [hrow]
  have hs2 : s < ((List.range stack.length).map
      (fun j => overlapEntryVal stack M s j)).length := by
    simpa using hs
  rw [List.getD_eq_getElem _ _ hs2, List.getElem_map, List.getElem_range]
  exact overlapEntryVal_diag stack M s ht hM

/-- C9 witness: a concrete single-member stack of the exact per-vector
length `4950 = 100·99/2` over `M = 100` entities (`top_k = 1`). -/
theorem eval_overlap_diag_one_witness :
    ∃ out, eval_overlap [List.replicate 4950 (0 : ℚ)] 100 = some out ∧
      out.length = [List.replicate 4950 (0 : ℚ)].length ∧
      ∀ s, s < [List.replicate 4950 (0 : ℚ)].length →
        (out.getD s []).getD s 0 = 1 :=
  eval_overlap_diag_one [List.replicate 4950 (0 : ℚ)] 100 (by decide)
    (by
      intro v hv
      rw [List.mem_singleton] at hv
      subst hv
      norm_num)

/-- C10: `eval_overlap` never validates the supplied entity count against the
stack's per-vector length: when every vector is strictly longer than
`M(M-1)/2`, the trailing entries are silently ignored (truncating them does
not change the result) and an `S×S` matrix is still returned — no
`InvalidEntityCount` (or any) error. -/
theorem eval_overlap_ignores_tail (stack : List (List ℚ)) (M : ℕ)
    (h : 1 ≤ top_k M) (hC : ∀ v ∈ stack, M * (M - 1) / 2 < v.length) :
    eval_overlap stack M =
        eval_overlap (stack.map (fun v => v.take (M * (M - 1) / 2))) M ∧
      ∃ out, eval_overlap stack M = some out ∧ out.length = stack.length ∧
        ∀ row ∈ out, row.length = stack.length := by
  have ht : top_k M ≠ 0 := by omega
  have hM : M ≠ 0 := by
    have h100 : 100 ≤ M := (Nat.one_le_div_iff (by norm_num)).mp h
    omega
  refine ⟨(eval_overlap_take stack M).symm, overlapMatrixVal stack M,
    eval_overlap_eq stack M ht hM, by simp [overlapMatrixVal], ?_⟩
  intro row hrow
  unfold overlapMatrixVal at hrow
  obtain ⟨i, _, rfl⟩ := List.mem_map.mp hrow
  simp

/-- C10 witness: a single similarity vector of 5000 entries used with
`M = 100` (so `M(M-1)/2 = 4950 < 5000`). -/
theorem eval_overlap_ignores_tail_witness :
    eval_overlap [List.replicate 5000 (0 : ℚ)] 100 =
        eval_overlap ([List.replicate 5000 (0 : ℚ)].map
          (fun v => v.take (100 * (100 - 1) / 2))) 100 ∧
      ∃ out, eval_overlap [List.replicate 5000 (0 : ℚ)] 100 = some out ∧
        out.length = [List.replicate 5000 (0 : ℚ)].length ∧
        ∀ row ∈ out, row.length = [List.replicate 5000 (0 : ℚ)].length :=
  eval_overlap_ignores_tail [List.replicate 5000 (0 : ℚ)] 100 (by decide)
    (by
      intro v hv
      rw [List.mem_singleton] at hv
      subst hv
      norm_num)

/-- C1: for every matrix with `M ≥ 1` rows of a common positive width `K`,
`sim_search` returns (for either metric mode and either flag) a similarity
vector of exactly `M(M-1)/2` entries, one per unique unordered pair `(i,j)`
with `i < j` enumerated in the lexicographic order
`(0,1),(0,2),…,(0,M-1),(1,2),…` — the enumeration `pairs M` is strictly
lexicographically increasing and contains precisely those pairs; in
particular a single-row matrix yields a valid empty vector, not an error. -/
theorem sim_search_shape (A : List (List ℚ)) (s : String) (fb : Bool) (K : ℕ)
    (hM : 1 ≤ A.length) (hK : 1 ≤ K) (hrect : ∀ r ∈ A, r.length = K) :
    ∃ v, sim_search A s fb = some v ∧
      v.length = A.length * (A.length - 1) / 2 ∧
      (∀ p : ℕ × ℕ, p ∈ pairs A.length ↔ p.1 < p.2 ∧ p.2 < A.length) ∧
      (pairs A.length).Pairwise pairLex ∧
      (A.length = 1 → v = []) ∧
      ∀ r : List ℚ, sim_search [r] s fb = some [] := by
  classical
  set fp := if s = "default" ∧ fb = true then clampBin A else A with hfp
  have hrows : ∀ i, i < A.length → (fp.getD i []).length = K := by
    intro i hi
    have hmem : A.getD i [] ∈ A := by
      rw [List.getD_eq_getElem A [] hi]
      exact List.getElem_mem hi
    rw [hfp]
    split
    · rw [show clampBin A =
          A.map (fun row => row.map (fun x => if 1 < x then 1 else x)) from rfl,
        getD_map_nil (by simp) A i, List.length_map]
      exact hrect _ hmem
    · exact hrect _ hmem
  have hsome : ∀ p ∈ pairs A.length,
      ∃ d, metricEval s (fp.getD p.1 []) (fp.getD p.2 []) = some d := by
    intro p hp
    unfold metricEval
    split
    · exact ⟨_, rfl⟩
    · have hm := pairs_mem.mp hp
      have h1 : p.1 < A.length := by omega
      unfold jaccard_like
      rw [hrows p.1 h1, if_neg (by omega)]
      exact ⟨_, rfl⟩
  set g : ℕ × ℕ → ℚ :=
    fun p => 1 - (metricEval s (fp.getD p.1 []) (fp.getD p.2 [])).getD 0 with hg
  have hmap : sim_search A s fb = some ((pairs A.length).map g) := by
    have hss : sim_search A s fb =
        mapOpt (fun p => (metricEval s (fp.getD p.1 []) (fp.getD p.2 [])).map
          (fun d => 1 - d)) (pairs A.length) := rfl
    rw [hss]
    apply mapOpt_eq_map
    intro p hp
    obtain ⟨d, hd⟩ := hsome p hp
    rw [hd]
    simp only [hg, Option.map_some', Option.some.injEq]
    rw [hd]
    rfl
  refine ⟨(pairs A.length).map g, hmap, ?_, fun p => pairs_mem, pairs_pairwise _,
    ?_, fun r => rfl⟩
  · rw [List.length_map, pairs_length]
  · intro h1
    rw [h1]
    rfl

/-- C1 witness: a concrete 2×2 binary matrix with the default metric. -/
theorem sim_search_shape_witness :
    ∃ v, sim_search [[(1 : ℚ), 0], [0, 1]] "default" true = some v ∧
      v.length = [[(1 : ℚ), 0], [0, 1]].length *
        ([[(1 : ℚ), 0], [0, 1]].length - 1) / 2 ∧
      (∀ p : ℕ × ℕ, p ∈ pairs [[(1 : ℚ), 0], [0, 1]].length ↔
        p.1 < p.2 ∧ p.2 < [[(1 : ℚ), 0], [0, 1]].length) ∧
      (pairs [[(1 : ℚ), 0], [0, 1]].length).Pairwise pairLex ∧
      ([[(1 : ℚ), 0], [0, 1]].length = 1 → v = []) ∧
      ∀ r : List ℚ, sim_search [r] "default" true = some [] :=
  sim_search_shape [[(1 : ℚ), 0], [0, 1]] "default" true 2 (by decide) (by decide)
    (by decide)

/-- C6: for every nonempty similarity vector, `eval_sim` returns exactly 22
values in the order [mean, population standard deviation (its square is the
divisor-`N` variance and it is nonnegative), median, then the 19 percentiles
at ranks 5·1, 5·2, …, 5·19 computed by linear interpolation between order
statistics (`np_percentile`)]. -/
theorem eval_sim_format (v : List ℚ) (h : v ≠ []) :
    ∃ l : List ℝ, eval_sim v = some l ∧ l.length = 22 ∧
      l.getD 0 0 = ((np_mean v : ℚ) : ℝ) ∧
      (l.getD 1 0) ^ 2 = ((np_var v : ℚ) : ℝ) ∧ 0 ≤ l.getD 1 0 ∧
      l.getD 2 0 = ((np_median v : ℚ) : ℝ) ∧
      ∀ t, t < 19 → l.getD (3 + t) 0 =
        ((np_percentile v ((5 * (t + 1) : ℕ) : ℚ) : ℚ) : ℝ) := by
  have hlen : ¬(v.length = 0) := by simpa [List.length_eq_zero] using h
  refine ⟨[((np_mean v : ℚ) : ℝ), np_std v, ((np_median v : ℚ) : ℝ)] ++
      percent_grid.map (fun q => ((np_percentile v q : ℚ) : ℝ)), ?_, ?_, rfl, ?_,
    Real.sqrt_nonneg _, rfl, ?_⟩
  · unfold eval_sim
    rw [if_neg hlen]
  · have h19 : percent_grid.length = 19 := by
      rw [show percent_grid = (List.range' 5 19 5).map (fun n : ℕ => (n : ℚ)) from rfl,
        List.length_map, List.length_range']
    rw [List.length_append, List.length_map, h19]
    rfl
  · show (np_std v) ^ 2 = ((np_var v : ℚ) : ℝ)
    unfold np_std
    exact Real.sq_sqrt (by exact_mod_cast np_var_nonneg v)
  · intro t ht
    have h19 : percent_grid.length = 19 := by
      rw [show percent_grid = (List.range' 5 19 5).map (fun n : ℕ => (n : ℚ)) from rfl,
        List.length_map, List.length_range']
    have hL : ([((np_mean v : ℚ) : ℝ), np_std v, ((np_median v : ℚ) : ℝ)] ++
        percent_grid.map (fun q => ((np_percentile v q : ℚ) : ℝ))).getD (3 + t) 0 =
        (percent_grid.map (fun q => ((np_percentile v q : ℚ) : ℝ))).getD t 0 := by
      rw [List.getD_eq_getElem?_getD, List.getElem?_append_right (by simp),
        List.getD_eq_getElem?_getD]
      simp
    rw [hL]
    have ht19 : t < (List.range' 5 19 5).length := by
      rw [List.length_range']
      omega
    have hpg : percent_grid[t]? = some ((5 + 5 * t : ℕ) : ℚ) := by
      rw [show percent_grid = (List.range' 5 19 5).map (fun n : ℕ => (n : ℚ)) from rfl,
        List.getElem?_map, List.getElem?_eq_getElem ht19, List.getElem_range']
      rfl
    rw [List.getD_eq_getElem?_getD, List.getElem?_map, hpg]
    have harg : ((5 + 5 * t : ℕ) : ℚ) = ((5 * (t + 1) : ℕ) : ℚ) := by
      push_cast
      ring
    rw [show (some ((5 + 5 * t : ℕ) : ℚ)).map
        (fun q => ((np_percentile v q : ℚ) : ℝ)) =
        some ((np_percentile v ((5 + 5 * t : ℕ) : ℚ) : ℚ) : ℝ) from rfl]
    rw [harg]
    rfl

/-- C6 witness: the 22-value format at the concrete vector `[1, 2]`. -/
theorem eval_sim_format_witness :
    ∃ l : List ℝ, eval_sim [(1 : ℚ), 2] = some l ∧ l.length = 22 ∧
      l.getD 0 0 = ((np_mean [(1 : ℚ), 2] : ℚ) : ℝ) ∧
      (l.getD 1 0) ^ 2 = ((np_var [(1 : ℚ), 2] : ℚ) : ℝ) ∧ 0 ≤ l.getD 1 0 ∧
      l.getD 2 0 = ((np_median [(1 : ℚ), 2] : ℚ) : ℝ) ∧
      ∀ t, t < 19 → l.getD (3 + t) 0 =
        ((np_percentile [(1 : ℚ), 2] ((5 * (t + 1) : ℕ) : ℚ) : ℚ) : ℝ) :=
  eval_sim_format [(1 : ℚ), 2] (by simp)

/-- C7: with any non-default metric name, `sim_search` succeeds on every
matrix of rows of a common positive width `K` and each output entry equals
the element-wise equality rate of its row pair — the number of agreeing
positions divided by `K` — and hence lies in `[0, 1]`. -/
theorem sim_search_alternate_rate (A : List (List ℚ)) (s : String) (fb : Bool)
    (K : ℕ) (hs : s ≠ "default") (hK : 1 ≤ K) (hrect : ∀ r ∈ A, r.length = K) :
    ∃ v, sim_search A s fb = some v ∧ v.length = (pairs A.length).length ∧
      ∀ c, c < v.length →
        v.getD c 0 =
          (countEq (A.getD ((pairs A.length).getD c (0, 0)).1 [])
              (A.getD ((pairs A.length).getD c (0, 0)).2 []) : ℚ) / (K : ℚ) ∧
          0 ≤ v.getD c 0 ∧ v.getD c 0 ≤ 1 := by
  classical
  have hfp : (if s = "default" ∧ fb = true then clampBin A else A) = A := by
    rw [if_neg]
    simp [hs]
  have hrows : ∀ i, i < A.length → (A.getD i []).length = K := by
    intro i hi
    have hmem : A.getD i [] ∈ A := by
      rw [List.getD_eq_getElem A [] hi]
      exact List.getElem_mem hi
    exact hrect _ hmem
  set g : ℕ × ℕ → ℚ :=
    fun p => (countEq (A.getD p.1 []) (A.getD p.2 []) : ℚ) / (K : ℚ) with hg
  have hmap : sim_search A s fb = some ((pairs A.length).map g) := by
    have hss : sim_search A s fb =
        mapOpt (fun p => (metricEval s
          ((if s = "default" ∧ fb = true then clampBin A else A).getD p.1 [])
          ((if s = "default" ∧ fb = true then clampBin A else A).getD p.2 [])).map
          (fun d => 1 - d)) (pairs A.length) := rfl
    rw [hss]
    apply mapOpt_eq_map
    intro p hp
    have hm := pairs_mem.mp hp
    rw [hfp]
    have h1 : (A.getD p.1 []).length = K := hrows p.1 (by omega)
    have hm2 : metricEval s (A.getD p.1 []) (A.getD p.2 []) =
        some (1 - (countEq (A.getD p.1 []) (A.getD p.2 []) : ℚ) / (K : ℚ)) := by
      unfold metricEval jaccard_like
      rw [if_neg hs, h1, if_neg (by omega)]
    rw [hm2]
    simp only [Option.map_some', Option.some.injEq, hg]
    ring
  refine ⟨(pairs A.length).map g, hmap, by rw [List.length_map], ?_⟩
  intro c hc
  have hc' : c < (pairs A.length).length := by simpa using hc
  have hval : ((pairs A.length).map g).getD c 0 =
      g ((pairs A.length).getD c (0, 0)) := by
    rw [List.getD_eq_getElem _ _ hc, List.getElem_map, List.getD_eq_getElem _ _ hc']
  have hp : (pairs A.length).getD c (0, 0) ∈ pairs A.length := by
    rw [List.getD_eq_getElem _ _ hc']
    exact List.getElem_mem hc'
  have hm := pairs_mem.mp hp
  have hb1 : (A.getD ((pairs A.length).getD c (0, 0)).1 []).length = K :=
    hrows _ (by omega)
  have hb2 : (A.getD ((pairs A.length).getD c (0, 0)).2 []).length = K :=
    hrows _ hm.2
  have hle : countEq (A.getD ((pairs A.length).getD c (0, 0)).1 [])
      (A.getD ((pairs A.length).getD c (0, 0)).2 []) ≤ K := by
    have hz : ((A.getD ((pairs A.length).getD c (0, 0)).1 []).zip
        (A.getD ((pairs A.length).getD c (0, 0)).2 [])).length = K := by
      rw [List.length_zip, hb1, hb2]
      simp
    have h1 : countEq (A.getD ((pairs A.length).getD c (0, 0)).1 [])
        (A.getD ((pairs A.length).getD c (0, 0)).2 []) ≤
        ((A.getD ((pairs A.length).getD c (0, 0)).1 []).zip
          (A.getD ((pairs A.length).getD c (0, 0)).2 [])).length :=
      List.length_filter_le _ _
    rw [hz] at h1
    exact h1
  refine ⟨?_, ?_, ?_⟩
  · rw [hval]
  · rw [hval]
    simp only [hg]
    positivity
  · rw [hval]
    simp only [hg]
    rw [div_le_one (by exact_mod_cast Nat.pos_of_ne_zero (by omega))]
    exact_mod_cast hle

/-- C7 witness: the element-wise equality rate property at a concrete 2×2
matrix and the concrete non-default metric name `"typo"`. -/
theorem sim_search_alternate_rate_witness :
    ∃ v, sim_search [[(1 : ℚ), 0], [1, 1]] "typo" true = some v ∧
      v.length = (pairs [[(1 : ℚ), 0], [1, 1]].length).length ∧
      ∀ c, c < v.length →
        v.getD c 0 =
          (countEq ([[(1 : ℚ), 0], [1, 1]].getD
              ((pairs [[(1 : ℚ), 0], [1, 1]].length).getD c (0, 0)).1 [])
            ([[(1 : ℚ), 0], [1, 1]].getD
              ((pairs [[(1 : ℚ), 0], [1, 1]].length).getD c (0, 0)).2 []) : ℚ) /
            ((2 : ℕ) : ℚ) ∧
          0 ≤ v.getD c 0 ∧ v.getD c 0 ≤ 1 :=
  sim_search_alternate_rate [[(1 : ℚ), 0], [1, 1]] "typo" true 2 (by decide)
    (by decide) (by decide)
